import Mathlib

/-!
Verification of the wagent build-and-run pipeline.

This file gives a shallow embedding of the pieces of the repository that
carry the verifiable behaviour, and proves the claimed properties about
them:

* the artifact verifier and manifest writer (`verifyArchive` in the run
  stage of compile.mjs, the manifest rewrite in package.mjs);
* the dependency resolver and requirement discovery (vendor.mjs);
* the deterministic packager (`listFilesRecursive` / `deterministicTar`
  in package.mjs);
* agent discovery and the agent registry (the discovery compile stage);
* the orchestration engine of the run stage (trace checking in
  `executeAgentTask`, agent resolution, the workflow loop with its
  stagnation counter and step ceiling).

File contents (bytes), hashes, the external tar serializer and the
sandbox invocation are modelled as explicit function parameters; file
systems are modelled as `Option`-valued inputs (a `none` file is a
missing file).  JavaScript truthiness tests on strings and numbers are
modelled explicitly (`""` and `0` are falsy).
-/

namespace Wagent

/-! ## Artifact manifests and the verifier (compile.mjs run stage, package.mjs) -/

/-- The manifest of one archive, as read back by `verifyArchive`.
`archive_sha256 = none` models a JSON manifest without that key. -/
structure ArchiveManifest where
  schema_version : Nat
  archive_sha256 : Option String
deriving DecidableEq, Repr

/-- Result of `verifyArchive`: `ok` returns the parsed manifest, the
other constructors are the three `fail` exits (`file.missing`,
`manifest.key.missing`, `archive.hash.mismatch`). -/
inductive VerifyResult where
  | ok (m : ArchiveManifest)
  | fileMissing
  | keyMissing
  | hashMismatch
deriving DecidableEq, Repr

/-- `verifyArchive` of the run stage: both files must exist, the
manifest's `archive_sha256` key must be present and truthy (JS `!want`
treats the empty string as missing), and the hash recomputed over the
archive bytes must equal it.  `hash` stands for SHA-256 over a byte
string. -/
def verifyArchive (hash : List Nat → String) (archiveFile : Option (List Nat))
    (manifestFile : Option ArchiveManifest) : VerifyResult :=
  match archiveFile with
  | none => .fileMissing
  | some bytes =>
    match manifestFile with
    | none => .fileMissing
    | some manifest =>
      let got := hash bytes
      match manifest.archive_sha256 with
      | none => .keyMissing
      | some want =>
        if want = "" then .keyMissing
        else if want = got then .ok manifest else .hashMismatch

/-- The final manifest written by `packageArtifacts`: the staged
manifest with `archive_sha256` set to the hash of the archive bytes
just written (`{ ...manifest, archive_sha256: hash }`). -/
def packagedManifest (hash : List Nat → String) (base : ArchiveManifest)
    (archiveBytes : List Nat) : ArchiveManifest :=
  { base with archive_sha256 := some (hash archiveBytes) }

/-! ## Dependency resolver (vendor.mjs) -/

/-- Catalog lookup, `packagesData[name]`: the catalog maps a package
name to its list of direct dependencies (`depends`). -/
def catLookup : List (String × List String) → String → Option (List String)
  | [], _ => none
  | (k, v) :: rest, name => if k = name then some v else catLookup rest name

/-- One element of the catalog keys not yet resolved: the termination
measure of the resolver counts these. -/
def unresolvedKeys (cat : List (String × List String)) (resolved : List String) : Nat :=
  ((cat.map Prod.fst).filter (fun k => decide (k ∉ resolved))).length

theorem catLookup_mem_keys {cat : List (String × List String)} {name : String}
    {deps : List String} (h : catLookup cat name = some deps) :
    name ∈ cat.map Prod.fst := by
  induction cat with
  | nil => simp [catLookup] at h
  | cons kv rest ih =>
    by_cases hk : kv.1 = name
    · simp [hk]
    · obtain ⟨k, v⟩ := kv
      simp only [catLookup] at h
      simp only at hk
      rw [if_neg hk] at h
      simp [ih h]

theorem filter_not_mem_append_lt (keys : List String) (resolved : List String)
    (name : String) (hk : name ∈ keys) (hn : name ∉ resolved) :
    (keys.filter (fun k => decide (k ∉ resolved ++ [name]))).length <
      (keys.filter (fun k => decide (k ∉ resolved))).length := by
  induction keys with
  | nil => simp at hk
  | cons k keys ih =>
    have hle : (keys.filter (fun x => decide (x ∉ resolved ++ [name]))).length ≤
        (keys.filter (fun x => decide (x ∉ resolved))).length := by
      apply List.Sublist.length_le
      apply List.monotone_filter_right
      intro a ha
      simp only [decide_eq_true_eq] at ha ⊢
      intro hmem
      exact ha (by simp [hmem])
    rcases List.mem_cons.mp hk with rfl | hMem
    · have h1 : (decide (name ∉ resolved ++ [name])) = false := by simp
      have h2 : (decide (name ∉ resolved)) = true := by simpa using hn
      simp only [List.filter_cons, h1, h2]
      simp only [Bool.false_eq_true, if_false, if_true, List.length_cons]
      omega
    · have hlt : (List.filter (fun x => decide (x ∉ resolved ++ [name])) keys).length <
          (List.filter (fun x => decide (x ∉ resolved)) keys).length := ih hMem
      simp only [List.filter_cons]
      by_cases hkn : k ∈ resolved ++ [name]
      · have h1 : (decide (k ∉ resolved ++ [name])) = false := by simp [hkn]
        simp only [h1, Bool.false_eq_true, if_false]
        by_cases hkr : (decide (k ∉ resolved)) = true
        · simp only [hkr, if_true, List.length_cons]
          omega
        · simp only [Bool.not_eq_true] at hkr
          simp only [hkr, Bool.false_eq_true, if_false]
          omega
      · have h1 : (decide (k ∉ resolved ++ [name])) = true := by simpa using hkn
        have h2 : (decide (k ∉ resolved)) = true := by
          simp only [decide_eq_true_eq]
          intro hr
          exact hkn (by simp [hr])
        simp only [h1, h2, if_true, List.length_cons]
        omega

theorem unresolvedKeys_lt {cat : List (String × List String)} {resolved : List String}
    {name : String} (hk : name ∈ cat.map Prod.fst) (hn : name ∉ resolved) :
    unresolvedKeys cat (resolved ++ [name]) < unresolvedKeys cat resolved :=
  filter_not_mem_append_lt (cat.map Prod.fst) resolved name hk hn

/-- The worklist loop of `resolveDependencies`: pop a name, skip it if
already resolved, warn and skip it if absent from the catalog,
otherwise append it to the resolved set and push its direct
dependencies.  The JS stack pops from the end; here the list head is
the top of the stack, so pushing `deps` in order is `deps.reverse ++
rest`. -/
def resolveLoop (cat : List (String × List String)) (stack : List String)
    (resolved : List String) : List String :=
  match stack with
  | [] => resolved
  | name :: rest =>
    if name ∈ resolved then resolveLoop cat rest resolved
    else
      match h : catLookup cat name with
      | none => resolveLoop cat rest resolved
      | some deps => resolveLoop cat (deps.reverse ++ rest) (resolved ++ [name])
termination_by (unresolvedKeys cat resolved, stack.length)
decreasing_by
  · apply Prod.Lex.right
    simp
  · apply Prod.Lex.right
    simp
  · apply Prod.Lex.left
    exact unresolvedKeys_lt (catLookup_mem_keys h) (by assumption)

/-- `resolveDependencies(rootPkgs, packagesData)`: run the worklist
seeded with the requested packages (`stack = [...rootPkgs]` pops from
the end, hence the reverse) and an empty resolved set. -/
def resolveDependencies (rootPkgs : List String)
    (cat : List (String × List String)) : List String :=
  resolveLoop cat rootPkgs.reverse []

theorem resolveLoop_nil (cat : List (String × List String)) (resolved : List String) :
    resolveLoop cat [] resolved = resolved := by
  rw [resolveLoop.eq_def]

theorem resolveLoop_cons_mem {cat : List (String × List String)} {resolved : List String}
    {name : String} (rest : List String) (h : name ∈ resolved) :
    resolveLoop cat (name :: rest) resolved = resolveLoop cat rest resolved := by
  rw [resolveLoop.eq_def]
  simp [h]

theorem resolveLoop_cons_none {cat : List (String × List String)} {resolved : List String}
    {name : String} (rest : List String) (h : name ∉ resolved)
    (hlk : catLookup cat name = none) :
    resolveLoop cat (name :: rest) resolved = resolveLoop cat rest resolved := by
  rw [resolveLoop.eq_def]
  dsimp only
  rw [if_neg h]
  split
  · rfl
  · rename_i deps hsome
    rw [hlk] at hsome
    cases hsome

theorem resolveLoop_cons_some {cat : List (String × List String)} {resolved : List String}
    {name : String} {deps : List String} (rest : List String) (h : name ∉ resolved)
    (hlk : catLookup cat name = some deps) :
    resolveLoop cat (name :: rest) resolved =
      resolveLoop cat (deps.reverse ++ rest) (resolved ++ [name]) := by
  rw [resolveLoop.eq_def]
  dsimp only
  rw [if_neg h]
  split
  · rename_i hsome
    rw [hlk] at hsome
    cases hsome
  · rename_i deps' hsome
    rw [hlk] at hsome
    cases hsome
    rfl

/-- The set the spec describes: names reachable from the requested
roots by following `depends` edges of the catalog, where every name on
the path (the endpoints included) is present in the catalog. -/
inductive InClosure (cat : List (String × List String)) (roots : List String) :
    String → Prop where
  | root {n : String} {deps : List String} :
      n ∈ roots → catLookup cat n = some deps → InClosure cat roots n
  | step {n d : String} {deps ddeps : List String} :
      InClosure cat roots n → catLookup cat n = some deps → d ∈ deps →
      catLookup cat d = some ddeps → InClosure cat roots d

theorem InClosure_congr {cat : List (String × List String)} {roots roots' : List String}
    (hr : ∀ x, x ∈ roots' ↔ x ∈ roots) {n : String} :
    InClosure cat roots' n → InClosure cat roots n := by
  intro h
  induction h with
  | root hmem hlk => exact .root ((hr _).mp hmem) hlk
  | step _ hlk hd hdlk ih => exact .step ih hlk hd hdlk

/-- Invariant-carrying specification of the worklist loop: if every
already-resolved name is in the closure, every catalog-present stack
entry is in the closure, and every catalog-present dependency of a
resolved name is resolved or still on the stack, then the final list is
a duplicate-free superset of `resolved` that is closed under
catalog-present dependencies, contains every catalog-present stack
entry, and contains only closure members. -/
theorem resolveLoop_spec (cat : List (String × List String)) (roots : List String)
    (stack resolved : List String)
    (h1 : ∀ n ∈ resolved, InClosure cat roots n)
    (h2 : ∀ s ∈ stack, (∃ ds, catLookup cat s = some ds) → InClosure cat roots s)
    (h3 : ∀ n ∈ resolved, ∀ deps, catLookup cat n = some deps →
      ∀ d ∈ deps, (∃ dd, catLookup cat d = some dd) → d ∈ resolved ∨ d ∈ stack)
    (h4 : resolved.Nodup) :
    (∀ n ∈ resolveLoop cat stack resolved, InClosure cat roots n) ∧
    (∀ n ∈ resolveLoop cat stack resolved, ∀ deps, catLookup cat n = some deps →
      ∀ d ∈ deps, (∃ dd, catLookup cat d = some dd) → d ∈ resolveLoop cat stack resolved) ∧
    (∀ s ∈ stack, (∃ ds, catLookup cat s = some ds) → s ∈ resolveLoop cat stack resolved) ∧
    (∀ n ∈ resolved, n ∈ resolveLoop cat stack resolved) ∧
    (resolveLoop cat stack resolved).Nodup := by
  induction stack, resolved using resolveLoop.induct cat with
  | case1 resolved =>
    rw [resolveLoop_nil]
    refine ⟨h1, ?_, by simp, fun n hn => hn, h4⟩
    intro n hn deps hdeps d hd hdc
    rcases h3 n hn deps hdeps d hd hdc with h | h
    · exact h
    · simp at h
  | case2 resolved name rest hmem ih =>
    rw [resolveLoop_cons_mem rest hmem]
    have ih' := ih h1 (fun s hs => h2 s (by simp [hs]))
      (fun n hn deps hdeps d hd hdc => by
        rcases h3 n hn deps hdeps d hd hdc with h | h
        · exact Or.inl h
        · rcases List.mem_cons.mp h with rfl | h
          · exact Or.inl hmem
          · exact Or.inr h)
      h4
    refine ⟨ih'.1, ih'.2.1, ?_, ih'.2.2.2.1, ih'.2.2.2.2⟩
    intro s hs hsc
    rcases List.mem_cons.mp hs with rfl | hs
    · exact ih'.2.2.2.1 s hmem
    · exact ih'.2.2.1 s hs hsc
  | case3 resolved name rest hmem hlk ih =>
    rw [resolveLoop_cons_none rest hmem hlk]
    have ih' := ih h1 (fun s hs => h2 s (by simp [hs]))
      (fun n hn deps hdeps d hd hdc => by
        rcases h3 n hn deps hdeps d hd hdc with h | h
        · exact Or.inl h
        · rcases List.mem_cons.mp h with rfl | h
          · rcases hdc with ⟨dd, hdd⟩
            rw [hlk] at hdd
            exact absurd hdd (by simp)
          · exact Or.inr h)
      h4
    refine ⟨ih'.1, ih'.2.1, ?_, ih'.2.2.2.1, ih'.2.2.2.2⟩
    intro s hs hsc
    rcases List.mem_cons.mp hs with rfl | hs
    · rcases hsc with ⟨dd, hdd⟩
      rw [hlk] at hdd
      exact absurd hdd (by simp)
    · exact ih'.2.2.1 s hs hsc
  | case4 resolved name rest hmem deps hlk ih =>
    rw [resolveLoop_cons_some rest hmem hlk]
    have hInName : InClosure cat roots name := h2 name (by simp) ⟨deps, hlk⟩
    have ih' := ih
      (fun n hn => by
        rcases List.mem_append.mp hn with h | h
        · exact h1 n h
        · simp at h
          subst h
          exact hInName)
      (fun s hs hsc => by
        rcases List.mem_append.mp hs with h | h
        · rcases hsc with ⟨ds, hds⟩
          exact .step hInName hlk (List.mem_reverse.mp h) hds
        · exact h2 s (by simp [h]) hsc)
      (fun n hn deps' hdeps' d hd hdc => by
        rcases List.mem_append.mp hn with h | h
        · rcases h3 n h deps' hdeps' d hd hdc with hh | hh
          · exact Or.inl (by simp [hh])
          · rcases List.mem_cons.mp hh with rfl | hh
            · exact Or.inl (by simp)
            · exact Or.inr (by simp [hh])
        · simp at h
          subst h
          rw [hlk] at hdeps'
          cases hdeps'
          exact Or.inr (by simp [List.mem_reverse.mpr hd])
        )
      (by simp [List.nodup_append, h4, hmem])
    refine ⟨ih'.1, ih'.2.1, ?_, ?_, ih'.2.2.2.2⟩
    · intro s hs hsc
      rcases List.mem_cons.mp hs with rfl | hs
      · exact ih'.2.2.2.1 s (by simp)
      · exact ih'.2.2.1 s (by simp [hs]) hsc
    · intro n hn
      exact ih'.2.2.2.1 n (by simp [hn])

/-! ## JS default string sort (`Array.prototype.sort()` without comparator) -/

/-- Lexicographic comparison of two strings by code point, the order
used by the JS default `sort()` on the ASCII package names involved. -/
def strLeB (a b : String) : Bool :=
  go a.data b.data
where
  go : List Char → List Char → Bool
  | [], _ => true
  | _ :: _, [] => false
  | x :: xs, y :: ys =>
    if x.toNat < y.toNat then true
    else if y.toNat < x.toNat then false
    else go xs ys

/-- `strLeB` as a relation, for sorting. -/
def strLe (a b : String) : Prop := strLeB a b = true

instance : DecidableRel strLe := fun a b => by
  unfold strLe
  infer_instance

theorem strLeB_go_total : ∀ xs ys : List Char, strLeB.go xs ys = true ∨ strLeB.go ys xs = true := by
  intro xs
  induction xs with
  | nil => intro ys; left; rfl
  | cons x xs ih =>
    intro ys
    cases ys with
    | nil => right; rfl
    | cons y ys =>
      by_cases h1 : x.toNat < y.toNat
      · left; simp [strLeB.go, h1]
      · by_cases h2 : y.toNat < x.toNat
        · right; simp [strLeB.go, h2]
        · rcases ih ys with h | h
          · left; simp [strLeB.go, h1, h2, h]
          · right; simp [strLeB.go, h1, h2, h]

theorem strLeB_go_trans : ∀ xs ys zs : List Char, strLeB.go xs ys = true →
    strLeB.go ys zs = true → strLeB.go xs zs = true := by
  intro xs
  induction xs with
  | nil => intro ys zs _ _; rfl
  | cons x xs ih =>
    intro ys zs h1 h2
    cases ys with
    | nil => simp [strLeB.go] at h1
    | cons y ys =>
      cases zs with
      | nil => simp [strLeB.go] at h2
      | cons z zs =>
        simp only [strLeB.go] at h1 h2 ⊢
        split_ifs at h1 h2 ⊢ <;> first
          | rfl
          | omega
          | (exact ih ys zs h1 h2)

instance : IsTotal String strLe where
  total a b := strLeB_go_total a.data b.data

instance : IsTrans String strLe where
  trans a b c h1 h2 := strLeB_go_trans a.data b.data c.data h1 h2

/-- The JS default `Array.prototype.sort()` of a string array, as used
on the requested set and on the resolved closure in vendor.mjs. -/
def sortStrings (l : List String) : List String := List.insertionSort strLe l

theorem sortStrings_sorted (l : List String) : List.Sorted strLe (sortStrings l) :=
  List.sorted_insertionSort strLe l

theorem sortStrings_perm (l : List String) : (sortStrings l).Perm l :=
  List.perm_insertionSort strLe l

/-- `resolveDependencies(requested, packagesData).sort()`, the closure
list handed downstream by `vendorDependencies`. -/
def closureList (requested : List String) (cat : List (String × List String)) :
    List String :=
  sortStrings (resolveDependencies requested cat)

theorem mem_resolveDependencies {roots : List String}
    {cat : List (String × List String)} {n : String} :
    n ∈ resolveDependencies roots cat ↔ InClosure cat roots n := by
  have spec := resolveLoop_spec cat roots roots.reverse []
    (by simp)
    (by
      rintro s hs ⟨ds, hds⟩
      exact .root (List.mem_reverse.mp hs) hds)
    (by simp)
    List.nodup_nil
  constructor
  · intro h
    exact spec.1 n h
  · intro h
    induction h with
    | root hmem hlk =>
      exact spec.2.2.1 _ (List.mem_reverse.mpr hmem) ⟨_, hlk⟩
    | step _ hlk hd hdlk ih =>
      exact spec.2.1 _ ih _ hlk _ hd ⟨_, hdlk⟩

theorem resolveDependencies_nodup (roots : List String)
    (cat : List (String × List String)) :
    (resolveDependencies roots cat).Nodup := by
  have spec := resolveLoop_spec cat roots roots.reverse []
    (by simp)
    (by
      rintro s hs ⟨ds, hds⟩
      exact .root (List.mem_reverse.mp hs) hds)
    (by simp)
    List.nodup_nil
  exact spec.2.2.2.2

theorem InClosure_lookup {cat : List (String × List String)} {roots : List String}
    {n : String} (h : InClosure cat roots n) : ∃ ds, catLookup cat n = some ds := by
  cases h with
  | root _ hlk => exact ⟨_, hlk⟩
  | step _ _ _ hdlk => exact ⟨_, hdlk⟩

/-! ## Requirement discovery (vendor.mjs) -/

/-- Whitespace recognised by the `trim()` applied to requirement
lines. -/
def isWsChar (c : Char) : Bool := c == ' ' || c == '\t' || c == '\n' || c == '\r'

/-- `String.prototype.trim` over the characters of a string. -/
def jsTrim (s : String) : String :=
  ⟨((s.data.dropWhile isWsChar).reverse.dropWhile isWsChar).reverse⟩

/-- The lines `vendorDependencies` keeps from one dependency
declaration file: `content.split("\n").map(s => s.trim()).filter(Boolean)`
— every trimmed non-empty line, taken verbatim.  A `none` file is a
missing requirements.txt, which contributes nothing (the read error is
swallowed). -/
def discoveredFromFile : Option (List String) → List String
  | none => []
  | some lines => (lines.map jsTrim).filter (fun s => !(s == ""))

/-- The requested set: the discovered lines of every agent directory,
the bootstrap packages `micropip` and `packaging` added, collected into
a `Set` (deduplicated) and sorted (`Array.from(discovered).sort()`). -/
def requestedPackages (files : List (Option (List String))) : List String :=
  sortStrings (((files.map discoveredFromFile).flatten ++ ["micropip", "packaging"]).dedup)

/-- Modelled from the spec (§6): parsing of one requirement line as the
spec describes it — blank lines and lines starting with `#` discarded,
and only the text before any of `>`, `=`, `<`, `!` kept.  The code in
vendor.mjs does not do this; this definition exists to compare the two. -/
def specRequirementName (line : String) : Option String :=
  let t := jsTrim line
  match t.data with
  | [] => none
  | c :: _ =>
    if c = '#' then none
    else some ⟨t.data.takeWhile (fun c => !(c == '>' || c == '=' || c == '<' || c == '!'))⟩

/-- Modelled from the spec: the requested set the claim describes,
using `specRequirementName` on every line. -/
def specRequestedPackages (files : List (Option (List String))) : List String :=
  sortStrings (((files.map (fun f => (f.getD []).filterMap specRequirementName)).flatten
    ++ ["micropip", "packaging"]).dedup)

/-! ## Claim C1 -/

/-- C1: archive verification succeeds exactly when both files exist,
the manifest carries `archive_sha256`, and the hash recomputed over the
archive bytes equals that field; a tampered archive whose bytes hash
differently from the packaged ones is rejected; verifying right after
packaging wrote its final manifest succeeds; there is no fallback that
skips the comparison (the success condition is an exact biconditional).
The hypothesis states that the hash function never produces the empty
string, true of SHA-256 hex digests. -/
theorem verifyArchive_exact (hash : List Nat → String) (hne : ∀ b, hash b ≠ "")
    (archiveFile : Option (List Nat)) (manifestFile : Option ArchiveManifest) :
    ((∃ m, verifyArchive hash archiveFile manifestFile = .ok m) ↔
      (∃ bytes m, archiveFile = some bytes ∧ manifestFile = some m ∧
        m.archive_sha256 = some (hash bytes))) ∧
    (∀ base bytes tampered, hash tampered ≠ hash bytes →
      verifyArchive hash (some tampered) (some (packagedManifest hash base bytes)) =
        .hashMismatch) ∧
    (∀ base bytes,
      verifyArchive hash (some bytes) (some (packagedManifest hash base bytes)) =
        .ok (packagedManifest hash base bytes)) := by
  refine ⟨⟨?_, ?_⟩, ?_, ?_⟩
  · rintro ⟨m, hm⟩
    cases archiveFile with
    | none => simp [verifyArchive] at hm
    | some bytes =>
      cases manifestFile with
      | none => simp [verifyArchive] at hm
      | some man =>
        refine ⟨bytes, man, rfl, rfl, ?_⟩
        simp only [verifyArchive] at hm
        cases hws : man.archive_sha256 with
        | none => rw [hws] at hm; simp at hm
        | some want =>
          rw [hws] at hm
          dsimp only at hm
          split_ifs at hm with hempty heq
          · rw [heq]
  · rintro ⟨bytes, m, rfl, rfl, hsha⟩
    refine ⟨m, ?_⟩
    simp only [verifyArchive, hsha]
    rw [if_neg (hne bytes)]
    simp
  · intro base bytes tampered hdiff
    simp only [verifyArchive, packagedManifest]
    rw [if_neg (hne bytes), if_neg (fun h => hdiff h.symm)]
  · intro base bytes
    simp only [verifyArchive, packagedManifest]
    rw [if_neg (hne bytes)]
    simp

/-- A concrete stand-in hash for witnesses. -/
def constHash (_ : List Nat) : String := "h"

theorem constHash_ne_empty : ∀ b : List Nat, constHash b ≠ "" := fun _ => by
  show ("h" : String) ≠ ""
  decide

/-- Witness for C1 at a concrete hash function, archive and manifest. -/
theorem verifyArchive_exact_witness :
    (∀ b : List Nat, constHash b ≠ "") ∧
    verifyArchive constHash (some [0, 1])
        (some (packagedManifest constHash ⟨1, none⟩ [0, 1])) =
      .ok (packagedManifest constHash ⟨1, none⟩ [0, 1]) :=
  ⟨constHash_ne_empty,
    (verifyArchive_exact constHash constHash_ne_empty (some [0, 1])
      (some (packagedManifest constHash ⟨1, none⟩ [0, 1]))).2.2 ⟨1, none⟩ [0, 1]⟩

/-! ## Claim C2 -/

/-- C2: the resolver returns exactly the names reachable from the
requested set along `depends` edges and present in the catalog, with no
duplicates, the same set for any reordering of the requested list;
names absent from the catalog are excluded (never fabricated, never an
abort — the function is total); the closure list handed downstream is
sorted. -/
theorem resolveDependencies_closure (roots : List String)
    (cat : List (String × List String)) :
    (∀ n, n ∈ resolveDependencies roots cat ↔ InClosure cat roots n) ∧
    (resolveDependencies roots cat).Nodup ∧
    (∀ roots', (∀ x, x ∈ roots' ↔ x ∈ roots) →
      ∀ n, n ∈ resolveDependencies roots' cat ↔ n ∈ resolveDependencies roots cat) ∧
    (∀ n, n ∈ resolveDependencies roots cat → ∃ ds, catLookup cat n = some ds) ∧
    (∀ n, n ∈ closureList roots cat ↔ n ∈ resolveDependencies roots cat) ∧
    List.Sorted strLe (closureList roots cat) := by
  refine ⟨fun n => mem_resolveDependencies, resolveDependencies_nodup roots cat,
    ?_, ?_, ?_, sortStrings_sorted _⟩
  · intro roots' hr n
    rw [mem_resolveDependencies, mem_resolveDependencies]
    constructor
    · exact InClosure_congr hr
    · exact InClosure_congr (fun x => (hr x).symm)
  · intro n hn
    exact InClosure_lookup (mem_resolveDependencies.mp hn)
  · intro n
    exact (sortStrings_perm (resolveDependencies roots cat)).mem_iff

/-- Witness for C2: in a concrete two-entry catalog the dependency of
the requested package is resolved. -/
theorem resolveDependencies_closure_witness :
    "b" ∈ resolveDependencies ["a"] [("a", ["b"]), ("b", [])] := by
  have h := (resolveDependencies_closure ["a"] [("a", ["b"]), ("b", [])]).1 "b"
  have hroot : InClosure [("a", ["b"]), ("b", [])] ["a"] "a" :=
    @InClosure.root [("a", ["b"]), ("b", [])] ["a"] "a" ["b"] (by simp) (by decide)
  have hstep : InClosure [("a", ["b"]), ("b", [])] ["a"] "b" :=
    @InClosure.step [("a", ["b"]), ("b", [])] ["a"] "a" "b" ["b"] [] hroot (by decide)
      (by simp) (by decide)
  exact h.mpr hstep

/-! ## Claim C6 -/

/-- C6 counterexample: on a requirements file holding the lines
`numpy>=1.0` and `# pinned`, the code's requested set keeps both lines
verbatim and does not contain `numpy`, while the set the claim
describes contains `numpy` and neither raw line. -/
theorem requestedPackages_ne_spec :
    requestedPackages [some ["numpy>=1.0", "# pinned"]] ≠
      specRequestedPackages [some ["numpy>=1.0", "# pinned"]] ∧
    "numpy>=1.0" ∈ requestedPackages [some ["numpy>=1.0", "# pinned"]] ∧
    "# pinned" ∈ requestedPackages [some ["numpy>=1.0", "# pinned"]] ∧
    "numpy" ∉ requestedPackages [some ["numpy>=1.0", "# pinned"]] ∧
    "numpy" ∈ specRequestedPackages [some ["numpy>=1.0", "# pinned"]] := by
  decide

/-- C6 amended: the requested set is the union over the agent
directories' dependency declaration files of the trimmed non-empty
lines taken verbatim — comment lines are kept and version qualifiers
are not stripped — together with the bootstrap set; a missing file
contributes nothing, and the result is duplicate-free and sorted. -/
theorem requestedPackages_spec (files : List (Option (List String))) :
    (∀ x, x ∈ requestedPackages files ↔
      (x = "micropip" ∨ x = "packaging" ∨
        ∃ f ∈ files, ∃ lines, f = some lines ∧ ∃ l ∈ lines, jsTrim l = x ∧ x ≠ "")) ∧
    (requestedPackages files).Nodup ∧
    List.Sorted strLe (requestedPackages files) ∧
    (requestedPackages (files ++ [none]) = requestedPackages files) := by
  refine ⟨?_, ?_, sortStrings_sorted _, ?_⟩
  · intro x
    rw [requestedPackages, (sortStrings_perm _).mem_iff, List.mem_dedup,
      List.mem_append]
    constructor
    · rintro (hj | hb)
      · rw [List.mem_flatten] at hj
        rcases hj with ⟨xs, hxs, hx⟩
        rw [List.mem_map] at hxs
        rcases hxs with ⟨f, hf, rfl⟩
        cases f with
        | none => simp [discoveredFromFile] at hx
        | some lines =>
          simp only [discoveredFromFile, List.mem_filter, List.mem_map] at hx
          rcases hx with ⟨⟨l, hl, rfl⟩, hne⟩
          refine Or.inr (Or.inr ⟨some lines, hf, lines, rfl, l, hl, rfl, ?_⟩)
          simpa using hne
      · rcases (by simpa using hb : x = "micropip" ∨ x = "packaging") with rfl | rfl
        · exact Or.inl rfl
        · exact Or.inr (Or.inl rfl)
    · rintro (rfl | rfl | ⟨f, hf, lines, rfl, l, hl, hx, hne⟩)
      · exact Or.inr (by simp)
      · exact Or.inr (by simp)
      · refine Or.inl ?_
        rw [List.mem_flatten]
        refine ⟨discoveredFromFile (some lines), List.mem_map_of_mem _ hf, ?_⟩
        simp only [discoveredFromFile, List.mem_filter, List.mem_map]
        exact ⟨⟨l, hl, hx⟩, by simpa using hne⟩
  · exact ((sortStrings_perm _).nodup_iff).mpr (List.nodup_dedup _)
  · simp [requestedPackages, discoveredFromFile]

/-! ## Orchestration engine (compile.mjs run stage) -/

/-- One entry of `agent_registry.json` as consumed by the run stage. -/
structure AgentEntry where
  name : String
  modulePath : String
deriving DecidableEq, Repr

/-- The agent registry: the descriptor list and the designated root
agent name. -/
structure AgentRegistry where
  agents : List AgentEntry
  rootAgent : String
deriving DecidableEq, Repr

/-- The fatal exits of `getAgentModulePath` and `executeAgentTask`
(`agent.registry.not.loaded`, `agent.not.found`, `trace.mismatch`). -/
inductive EngineError where
  | registryNotLoaded
  | agentNotFound
  | traceMismatch
deriving DecidableEq, Repr

/-- `getAgentModulePath(agentName)`: fail if the module-level registry
was never loaded, fail if no registered agent bears the name, otherwise
return the agent's module path.  The possibly-unloaded global registry
is the `Option AgentRegistry` argument. -/
def getAgentModulePath (registry : Option AgentRegistry) (agentName : String) :
    Except EngineError String :=
  match registry with
  | none => .error .registryNotLoaded
  | some reg =>
    match reg.agents.find? (fun a => a.name == agentName) with
    | none => .error .agentNotFound
    | some a => .ok a.modulePath

/-- The two numeric fields the progress extraction inspects on a
pending directive's `input_data`. -/
structure Payload where
  processed_result : Option Int
  number : Option Int
deriving DecidableEq, Repr

/-- A well-formed `run_agent` directive payload. -/
structure Directive where
  agent_name : String
  input_data : Payload
deriving DecidableEq, Repr

/-- A step response after JSON parsing: `complete` with a result,
`pending` with a well-formed `run_agent` directive, or anything else
(`agent.response.invalid`). -/
inductive AgentResponse where
  | complete (result : Int)
  | pending (d : Directive)
  | invalid
deriving DecidableEq, Repr

/-- The input tape `{trace_id, payload}` written before invocation. -/
structure TapeIn where
  trace_id : String
  payload : Payload
deriving DecidableEq, Repr

/-- The output tape `{trace_id, ...}` read back after invocation. -/
structure TapeOut where
  trace_id : String
  response : AgentResponse
deriving DecidableEq, Repr

/-- `executeAgentTask`: resolve the agent's module path from the
registry, write the input tape carrying the fresh trace identifier,
invoke the sandboxed module (the `sandbox` parameter maps a module path
and an input tape to the output tape it leaves behind), and reject the
step if the echoed `trace_id` differs from the one sent. -/
def executeAgentTask (registry : Option AgentRegistry) (agentName : String)
    (sandbox : String → TapeIn → TapeOut) (traceId : String) (inputData : Payload) :
    Except EngineError AgentResponse :=
  match getAgentModulePath registry agentName with
  | .error e => .error e
  | .ok modulePath =>
    let out := sandbox modulePath { trace_id := traceId, payload := inputData }
    if out.trace_id ≠ traceId then .error .traceMismatch else .ok out.response

/-- JS truthiness of an optional numeric field: an absent field and a
zero value are both falsy. -/
def truthyNum : Option Int → Option Int
  | none => none
  | some v => if v = 0 then none else some v

/-- `p.input_data.processed_result || p.input_data.number || 0`. -/
def extractProgress (p : Payload) : Int :=
  match truthyNum p.processed_result with
  | some v => v
  | none =>
    match truthyNum p.number with
    | some v => v
    | none => 0

/-- The stagnation counter update of one pending step: with a previous
progress value (the last history entry) the counter increments when the
new value fails to strictly increase and resets to zero otherwise; with
no previous value (fewer than two history entries) it is unchanged. -/
def nextStagnant (stagnant : Nat) (prev : Option Int) (cur : Int) : Nat :=
  match prev with
  | none => stagnant
  | some last => if cur ≤ last then stagnant + 1 else 0

/-- `maxSteps` of the workflow loop. -/
def maxSteps : Nat := 20

/-- `maxStagnantSteps` of the workflow loop. -/
def maxStagnantSteps : Nat := 5

/-- How one run ends.  `maxStepsAbort` is the `workflow.max.steps`
failure of the post-loop check; a completion on the very step that
exhausts the ceiling still exits through that failure, because the
post-loop check only looks at the step counter. -/
inductive Outcome where
  | completed (result : Int) (steps : Nat)
  | invalidAbort (steps : Nat)
  | stagnantAbort (steps : Nat)
  | maxStepsAbort (steps : Nat)
  | execAbort (e : EngineError) (steps : Nat)
deriving DecidableEq, Repr

/-- The workflow loop of `main`, from a loop state: `exec k` is the
result of `executeAgentTask` on the `k`-th executed step (an `.error`
is a `fail` inside it, which exits the process at once).  Each pending
step extracts a progress value, appends it to the history, updates the
stagnation counter against the previous value and aborts when the
counter reaches the threshold; a completion leaves the loop, after
which the post-loop check reports `workflow.max.steps` whenever the
counter reached the ceiling. -/
def runFrom (exec : Nat → Except EngineError AgentResponse)
    (stepCount stagnant : Nat) (history : List Int) : Outcome :=
  if h : stepCount < maxSteps then
    match exec (stepCount + 1) with
    | .error e => .execAbort e (stepCount + 1)
    | .ok (.complete r) =>
      if maxSteps ≤ stepCount + 1 then .maxStepsAbort (stepCount + 1)
      else .completed r (stepCount + 1)
    | .ok .invalid => .invalidAbort (stepCount + 1)
    | .ok (.pending d) =>
      if maxStagnantSteps ≤
          nextStagnant stagnant history.getLast? (extractProgress d.input_data) then
        .stagnantAbort (stepCount + 1)
      else
        runFrom exec (stepCount + 1)
          (nextStagnant stagnant history.getLast? (extractProgress d.input_data))
          (history ++ [extractProgress d.input_data])
  else .maxStepsAbort stepCount
termination_by maxSteps - stepCount
decreasing_by omega

/-- A whole run: step counter 0, stagnation counter 0, empty history. -/
def runWorkflow (exec : Nat → Except EngineError AgentResponse) : Outcome :=
  runFrom exec 0 0 []

theorem runFrom_stop {exec : Nat → Except EngineError AgentResponse}
    {stepCount stagnant : Nat} {history : List Int} (hsc : ¬ stepCount < maxSteps) :
    runFrom exec stepCount stagnant history = .maxStepsAbort stepCount := by
  rw [runFrom.eq_def, dif_neg hsc]

theorem runFrom_error {exec : Nat → Except EngineError AgentResponse}
    {stepCount stagnant : Nat} {history : List Int} {e : EngineError}
    (hsc : stepCount < maxSteps) (hx : exec (stepCount + 1) = .error e) :
    runFrom exec stepCount stagnant history = .execAbort e (stepCount + 1) := by
  rw [runFrom.eq_def, dif_pos hsc, hx]

theorem runFrom_complete {exec : Nat → Except EngineError AgentResponse}
    {stepCount stagnant : Nat} {history : List Int} {r : Int}
    (hsc : stepCount < maxSteps) (hx : exec (stepCount + 1) = .ok (.complete r)) :
    runFrom exec stepCount stagnant history =
      if maxSteps ≤ stepCount + 1 then .maxStepsAbort (stepCount + 1)
      else .completed r (stepCount + 1) := by
  rw [runFrom.eq_def, dif_pos hsc, hx]

theorem runFrom_invalid {exec : Nat → Except EngineError AgentResponse}
    {stepCount stagnant : Nat} {history : List Int}
    (hsc : stepCount < maxSteps) (hx : exec (stepCount + 1) = .ok .invalid) :
    runFrom exec stepCount stagnant history = .invalidAbort (stepCount + 1) := by
  rw [runFrom.eq_def, dif_pos hsc, hx]

theorem runFrom_pending {exec : Nat → Except EngineError AgentResponse}
    {stepCount stagnant : Nat} {history : List Int} {d : Directive}
    (hsc : stepCount < maxSteps) (hx : exec (stepCount + 1) = .ok (.pending d)) :
    runFrom exec stepCount stagnant history =
      (if maxStagnantSteps ≤
          nextStagnant stagnant history.getLast? (extractProgress d.input_data) then
        .stagnantAbort (stepCount + 1)
      else
        runFrom exec (stepCount + 1)
          (nextStagnant stagnant history.getLast? (extractProgress d.input_data))
          (history ++ [extractProgress d.input_data])) := by
  rw [runFrom.eq_def, dif_pos hsc, hx]

/-- A stagnation abort always reports a step strictly beyond the state
it was launched from. -/
theorem runFrom_stagnant_gt {exec : Nat → Except EngineError AgentResponse}
    {stepCount stagnant : Nat} {history : List Int} {s : Nat}
    (h : runFrom exec stepCount stagnant history = .stagnantAbort s) :
    stepCount < s := by
  induction stepCount, stagnant, history using runFrom.induct exec with
  | case1 stepCount stagnant history hsc e hx =>
    rw [runFrom_error hsc hx] at h
    cases h
  | case2 stepCount stagnant history hsc r hx hceil =>
    rw [runFrom_complete hsc hx, if_pos hceil] at h
    cases h
  | case3 stepCount stagnant history hsc r hx hceil =>
    rw [runFrom_complete hsc hx, if_neg hceil] at h
    cases h
  | case4 stepCount stagnant history hsc hx =>
    rw [runFrom_invalid hsc hx] at h
    cases h
  | case5 stepCount stagnant history hsc d hx habort =>
    rw [runFrom_pending hsc hx, if_pos habort] at h
    cases h
    omega
  | case6 stepCount stagnant history hsc d hx habort ih =>
    rw [runFrom_pending hsc hx, if_neg habort] at h
    have := ih h
    omega
  | case7 stepCount stagnant history hsc =>
    rw [runFrom_stop hsc] at h
    cases h

/-- A step-limit abort always reports exactly the ceiling, as long as
the loop state has not yet passed it. -/
theorem runFrom_maxSteps_eq {exec : Nat → Except EngineError AgentResponse}
    {stepCount stagnant : Nat} {history : List Int} {s : Nat}
    (hsc0 : stepCount ≤ maxSteps)
    (h : runFrom exec stepCount stagnant history = .maxStepsAbort s) :
    s = maxSteps := by
  induction stepCount, stagnant, history using runFrom.induct exec with
  | case1 stepCount stagnant history hsc e hx =>
    rw [runFrom_error hsc hx] at h
    cases h
  | case2 stepCount stagnant history hsc r hx hceil =>
    rw [runFrom_complete hsc hx, if_pos hceil] at h
    cases h
    omega
  | case3 stepCount stagnant history hsc r hx hceil =>
    rw [runFrom_complete hsc hx, if_neg hceil] at h
    cases h
  | case4 stepCount stagnant history hsc hx =>
    rw [runFrom_invalid hsc hx] at h
    cases h
  | case5 stepCount stagnant history hsc d hx habort =>
    rw [runFrom_pending hsc hx, if_pos habort] at h
    cases h
  | case6 stepCount stagnant history hsc d hx habort ih =>
    rw [runFrom_pending hsc hx, if_neg habort] at h
    exact ih (by omega) h
  | case7 stepCount stagnant history hsc =>
    rw [runFrom_stop hsc] at h
    cases h
    omega

/-! ## Claim C3 -/

/-- C3: on each pending step the extracted progress value is compared
with the previous one — a non-increase increments the stagnation
counter, a strict increase resets it to zero — and the run aborts as
stagnant exactly when the updated counter reaches the threshold of 5 on
that step; with an agent that always reports the same progress value
the run aborts as stagnant on step 6, after exactly 5 non-increasing
steps (the first step has no previous value to compare with). -/
theorem workflow_stagnation :
    (∀ stagnant last cur, cur ≤ last → nextStagnant stagnant (some last) cur = stagnant + 1) ∧
    (∀ stagnant last cur, last < cur → nextStagnant stagnant (some last) cur = 0) ∧
    (∀ (exec : Nat → Except EngineError AgentResponse) stepCount stagnant history d,
      stepCount < maxSteps → exec (stepCount + 1) = .ok (.pending d) →
      (runFrom exec stepCount stagnant history = .stagnantAbort (stepCount + 1) ↔
        maxStagnantSteps ≤ nextStagnant stagnant history.getLast?
          (extractProgress d.input_data))) ∧
    (∀ d, runWorkflow (fun _ => .ok (.pending d)) = .stagnantAbort 6) := by
  refine ⟨?_, ?_, ?_, ?_⟩
  · intro stagnant last cur hc
    simp [nextStagnant, hc]
  · intro stagnant last cur hc
    simp [nextStagnant, not_le.mpr hc]
  · intro exec stepCount stagnant history d hsc hx
    constructor
    · intro h
      by_cases hc : maxStagnantSteps ≤
          nextStagnant stagnant history.getLast? (extractProgress d.input_data)
      · exact hc
      · rw [runFrom_pending hsc hx, if_neg hc] at h
        have := runFrom_stagnant_gt h
        omega
    · intro hc
      rw [runFrom_pending hsc hx, if_pos hc]
  · intro d
    have hx : ∀ k : Nat,
        (fun _ : Nat => (Except.ok (AgentResponse.pending d) : Except EngineError AgentResponse)) k =
          .ok (.pending d) := fun _ => rfl
    show runFrom _ 0 0 [] = .stagnantAbort 6
    rw [runFrom_pending (by decide) (hx 1)]
    simp only [List.getLast?_nil, nextStagnant, List.nil_append]
    rw [if_neg (by decide)]
    rw [runFrom_pending (by decide) (hx 2)]
    simp only [List.getLast?_singleton, nextStagnant, if_pos (le_refl _)]
    rw [if_neg (by decide)]
    rw [runFrom_pending (by decide) (hx 3)]
    simp only [List.getLast?_concat, nextStagnant, if_pos (le_refl _)]
    rw [if_neg (by decide)]
    rw [runFrom_pending (by decide) (hx 4)]
    simp only [List.getLast?_concat, nextStagnant, if_pos (le_refl _)]
    rw [if_neg (by decide)]
    rw [runFrom_pending (by decide) (hx 5)]
    simp only [List.getLast?_concat, nextStagnant, if_pos (le_refl _)]
    rw [if_neg (by decide)]
    rw [runFrom_pending (by decide) (hx 6)]
    simp only [List.getLast?_concat, nextStagnant, if_pos (le_refl _)]
    rw [if_pos (by decide)]

/-- Witness for C3: a concrete pending step whose non-increasing
progress makes the engine abort as stagnant on that very step. -/
theorem workflow_stagnation_witness :
    ((4 : Nat) < maxSteps) ∧
    runFrom (fun _ => .ok (.pending ⟨"agent", ⟨none, none⟩⟩)) 4 4 [0, 0, 0, 0] =
      .stagnantAbort 5 := by
  have h := workflow_stagnation.2.2.1 (fun _ => .ok (.pending ⟨"agent", ⟨none, none⟩⟩))
    4 4 [0, 0, 0, 0] ⟨"agent", ⟨none, none⟩⟩ (by decide) rfl
  exact ⟨by decide, h.mpr (by decide)⟩

/-! ## Claim C4 -/

/-- A run whose agent reports pending with strictly increasing progress
up to step 19 and `complete` exactly on step 20. -/
def exec20 : Nat → Except EngineError AgentResponse := fun k =>
  if k = 20 then .ok (.complete 42)
  else .ok (.pending { agent_name := "agent",
                       input_data := { processed_result := none, number := some (k : Int) } })

/-- C4 counterexample: the agent driven by `exec20` returns `complete`
on the 20th step — at the step ceiling, not beyond it — yet the run is
reported as `workflow.max.steps`, not as Complete, because the
post-loop check fires whenever the step counter reached the ceiling. -/
theorem step_limit_completion_counterexample :
    exec20 20 = .ok (.complete 42) ∧
    runWorkflow exec20 = .maxStepsAbort 20 ∧
    ∀ r s, runWorkflow exec20 ≠ .completed r s := by
  have h2 : runWorkflow exec20 = .maxStepsAbort 20 := by
    simp +decide [runWorkflow, runFrom, exec20, extractProgress, truthyNum, nextStagnant,
      maxSteps, maxStagnantSteps]
  refine ⟨rfl, h2, ?_⟩
  intro r s h
  rw [h2] at h
  cases h

/-- C4 amended: a step-limit abort is reported exactly when the step
counter reaches the ceiling of 20; a `complete` response on any step
strictly before the 20th ends the run in Complete with that result; a
`complete` response exactly on the 20th step is still reported as a
step-limit abort. -/
theorem step_bound_amended :
    (∀ exec s, runWorkflow exec = .maxStepsAbort s → s = maxSteps) ∧
    (∀ (exec : Nat → Except EngineError AgentResponse) stepCount stagnant history r,
      stepCount + 1 < maxSteps → exec (stepCount + 1) = .ok (.complete r) →
      runFrom exec stepCount stagnant history = .completed r (stepCount + 1)) ∧
    (∀ (exec : Nat → Except EngineError AgentResponse) stagnant history r,
      exec maxSteps = .ok (.complete r) →
      runFrom exec (maxSteps - 1) stagnant history = .maxStepsAbort maxSteps) := by
  refine ⟨?_, ?_, ?_⟩
  · intro exec s h
    exact runFrom_maxSteps_eq (by omega) h
  · intro exec stepCount stagnant history r hlt hx
    rw [runFrom_complete (by omega) hx, if_neg (by omega)]
  · intro exec stagnant history r hx
    have hx' : exec (maxSteps - 1 + 1) = .ok (.complete r) := by
      simpa [maxSteps] using hx
    rw [runFrom_complete (by simp [maxSteps]) hx', if_pos (by simp [maxSteps])]
    simp [maxSteps]

/-- Witness for C4's amended statement: an agent completing on the
first step ends the run in Complete with its result. -/
theorem step_bound_amended_witness :
    ((0 : Nat) + 1 < maxSteps) ∧
    runWorkflow (fun _ => .ok (.complete 7)) = .completed 7 1 := by
  have h := step_bound_amended.2.1 (fun _ => .ok (.complete 7)) 0 0 [] 7 (by decide) rfl
  exact ⟨by decide, h⟩

/-! ## Claim C5 -/

/-- C5: each step's input tape carries the step's trace identifier, and
after the sandbox invocation the echoed `trace_id` is compared with it:
a mismatch makes that very step fail with the trace-mismatch error (an
`exec` error on step 1 aborts the whole run on step 1), and a step
result is only ever delivered when the echoed identifier equals the one
sent. -/
theorem trace_echo_guard :
    (∀ registry agentName sandbox traceId inputData modulePath,
      getAgentModulePath registry agentName = .ok modulePath →
      (sandbox modulePath { trace_id := traceId, payload := inputData }).trace_id ≠ traceId →
      executeAgentTask registry agentName sandbox traceId inputData =
        .error .traceMismatch) ∧
    (∀ registry agentName sandbox traceId inputData resp,
      executeAgentTask registry agentName sandbox traceId inputData = .ok resp →
      ∃ modulePath, getAgentModulePath registry agentName = .ok modulePath ∧
        (sandbox modulePath { trace_id := traceId, payload := inputData }).trace_id = traceId ∧
        resp = (sandbox modulePath { trace_id := traceId, payload := inputData }).response) ∧
    (∀ (exec : Nat → Except EngineError AgentResponse) e,
      exec 1 = .error e → runWorkflow exec = .execAbort e 1) := by
  refine ⟨?_, ?_, ?_⟩
  · intro registry agentName sandbox traceId inputData modulePath hmp hne
    simp only [executeAgentTask, hmp]
    rw [if_pos hne]
  · intro registry agentName sandbox traceId inputData resp h
    unfold executeAgentTask at h
    cases hmp : getAgentModulePath registry agentName with
    | error e =>
      rw [hmp] at h
      cases h
    | ok modulePath =>
      rw [hmp] at h
      dsimp only at h
      split_ifs at h with hne <;> cases h
      exact ⟨modulePath, rfl, not_not.mp hne, rfl⟩
  · intro exec e hx
    exact runFrom_error (by decide) hx

/-- A concrete registry for witnesses. -/
def regW : AgentRegistry :=
  { agents := [{ name := "agent", modulePath := "agent.main" }], rootAgent := "agent" }

/-- A sandbox stub that echoes a wrong trace identifier. -/
def badEcho : String → TapeIn → TapeOut :=
  fun _ _ => { trace_id := "other", response := .invalid }

/-- Witness for C5: the wrong-echo stub makes the step fail with the
trace mismatch error. -/
theorem trace_echo_guard_witness :
    getAgentModulePath (some regW) "agent" = .ok "agent.main" ∧
    executeAgentTask (some regW) "agent" badEcho "t0" ⟨none, none⟩ =
      .error .traceMismatch := by
  refine ⟨rfl, ?_⟩
  exact trace_echo_guard.1 (some regW) "agent" badEcho "t0" ⟨none, none⟩ "agent.main" rfl
    (by decide)

/-! ## Claim C9 -/

/-- C9: the progress extraction falls back from `processed_result` to
`number` and then to 0, using truthiness rather than presence: a
present-but-zero `processed_result` behaves exactly like an absent one,
a directive with both fields falsy is scored 0, and a 0-scored step
following any previous progress value that is at least 0 counts as
non-increasing (increments the stagnation counter). -/
theorem progress_truthiness :
    (∀ w, extractProgress ⟨none, some w⟩ = if w = 0 then 0 else w) ∧
    (extractProgress ⟨none, none⟩ = 0) ∧
    (∀ num, extractProgress ⟨some 0, num⟩ = extractProgress ⟨none, num⟩) ∧
    (extractProgress ⟨some 0, some 0⟩ = 0) ∧
    (∀ stagnant prev, 0 ≤ prev → nextStagnant stagnant (some prev) 0 = stagnant + 1) := by
  refine ⟨?_, rfl, ?_, rfl, ?_⟩
  · intro w
    by_cases h : w = 0 <;> simp [extractProgress, truthyNum, h]
  · intro num
    simp [extractProgress, truthyNum]
  · intro stagnant prev h
    simp [nextStagnant, h]

/-- Witness for C9: a zero-progress step after a zero-progress step
increments the stagnation counter. -/
theorem progress_truthiness_witness :
    ((0 : Int) ≤ 0) ∧ nextStagnant 3 (some 0) 0 = 4 :=
  ⟨by decide, progress_truthiness.2.2.2.2 3 0 (by decide)⟩

/-! ## Claim C10 -/

/-- C10: every step first resolves the agent name through the loaded
registry; with no registry loaded, or with a name absent from the
registry's agent list, the step fails before the sandbox is ever
consulted (the outcome does not depend on the sandbox at all), a
successful step implies the name was found, and an `exec` failure on
any step aborts the run at that step. -/
theorem agent_resolution_guard :
    (∀ agentName sandbox traceId inputData,
      executeAgentTask none agentName sandbox traceId inputData =
        .error .registryNotLoaded) ∧
    (∀ reg agentName sandbox traceId inputData,
      reg.agents.find? (fun a => a.name == agentName) = none →
      executeAgentTask (some reg) agentName sandbox traceId inputData =
        .error .agentNotFound) ∧
    (∀ registry agentName sandbox1 sandbox2 traceId inputData e,
      getAgentModulePath registry agentName = .error e →
      executeAgentTask registry agentName sandbox1 traceId inputData = .error e ∧
      executeAgentTask registry agentName sandbox2 traceId inputData = .error e) ∧
    (∀ registry agentName sandbox traceId inputData resp,
      executeAgentTask registry agentName sandbox traceId inputData = .ok resp →
      ∃ reg entry, registry = some reg ∧
        reg.agents.find? (fun a => a.name == agentName) = some entry) ∧
    (∀ (exec : Nat → Except EngineError AgentResponse) stepCount stagnant history e,
      stepCount < maxSteps → exec (stepCount + 1) = .error e →
      runFrom exec stepCount stagnant history = .execAbort e (stepCount + 1)) := by
  refine ⟨?_, ?_, ?_, ?_, ?_⟩
  · intro agentName sandbox traceId inputData
    rfl
  · intro reg agentName sandbox traceId inputData hf
    simp only [executeAgentTask, getAgentModulePath, hf]
  · intro registry agentName sandbox1 sandbox2 traceId inputData e he
    refine ⟨?_, ?_⟩ <;> simp [executeAgentTask, he]
  · intro registry agentName sandbox traceId inputData resp h
    unfold executeAgentTask at h
    cases hmp : getAgentModulePath registry agentName with
    | error e =>
      rw [hmp] at h
      cases h
    | ok modulePath =>
      unfold getAgentModulePath at hmp
      cases registry with
      | none => cases hmp
      | some reg =>
        dsimp only at hmp
        cases hf : reg.agents.find? (fun a => a.name == agentName) with
        | none =>
          rw [hf] at hmp
          cases hmp
        | some entry => exact ⟨reg, entry, rfl, hf⟩
  · intro exec stepCount stagnant history e hsc hx
    exact runFrom_error hsc hx

/-- Witness for C10: an unknown agent name fails with the not-found
error before the sandbox runs. -/
theorem agent_resolution_guard_witness :
    (regW.agents.find? (fun a => a.name == "ghost") = none) ∧
    executeAgentTask (some regW) "ghost" badEcho "t0" ⟨none, none⟩ =
      .error .agentNotFound := by
  refine ⟨rfl, ?_⟩
  exact agent_resolution_guard.2.1 regW "ghost" badEcho "t0" ⟨none, none⟩ rfl

/-! ## Deterministic packager (package.mjs) -/

/-- One file of a staged tree as the recursive walk encounters it:
relative path, content bytes, and the filesystem modification time
(which the packager must not embed). -/
structure StagedFile where
  path : String
  content : List Nat
  mtime : Nat
deriving DecidableEq, Repr

/-- `listFilesRecursive`: the paths of every file of the staged tree
(the argument list is the walk's enumeration), sorted
(`out.sort((a, b) => a.localeCompare(b))`; on the ASCII artifact paths
of this pipeline the fixed comparator is the lexicographic string
order `strLe`). -/
def listFilesRecursive (tree : List StagedFile) : List String :=
  sortStrings (tree.map (fun f => f.path))

/-- The bytes the serializer reads back for one path of the staged
tree. -/
def contentOf : List StagedFile → String → List Nat
  | [], _ => []
  | f :: rest, p => if f.path = p then f.content else contentOf rest p

/-- Result of `deterministicTar`: the archive bytes and its entry
count, or the `tar.empty` failure. -/
inductive TarResult where
  | ok (archive : List Nat) (entries : Nat)
  | emptyError
deriving DecidableEq, Repr

/-- `deterministicTar`: serialize the sorted file list with the
external tar+gzip serializer.  With `portable: true` and
`noMtime: true` the serializer consumes exactly the entry paths and
their bytes, so `tarCreate` is a function of the (path, content) pairs
alone — mtimes are not passed.  An archive with zero entries is the
`tar.empty` failure. -/
def deterministicTar (tarCreate : List (String × List Nat) → List Nat)
    (tree : List StagedFile) : TarResult :=
  if (listFilesRecursive tree).length = 0 then .emptyError
  else
    .ok (tarCreate ((listFilesRecursive tree).map (fun p => (p, contentOf tree p))))
      (listFilesRecursive tree).length

theorem contentOf_congr : ∀ t1 t2 : List StagedFile,
    t1.map (fun f => (f.path, f.content)) = t2.map (fun f => (f.path, f.content)) →
    ∀ p, contentOf t1 p = contentOf t2 p := by
  intro t1
  induction t1 with
  | nil =>
    intro t2 h p
    cases t2 with
    | nil => rfl
    | cons b bs => simp at h
  | cons a as ih =>
    intro t2 h p
    cases t2 with
    | nil => simp at h
    | cons b bs =>
      simp only [List.map_cons, List.cons.injEq, Prod.mk.injEq] at h
      obtain ⟨⟨hp, hc⟩, hrest⟩ := h
      unfold contentOf
      rw [hp, hc]
      by_cases hb : b.path = p
      · rw [if_pos hb, if_pos hb]
      · rw [if_neg hb, if_neg hb]
        exact ih bs hrest p

theorem listFilesRecursive_congr {t1 t2 : List StagedFile}
    (h : t1.map (fun f => (f.path, f.content)) = t2.map (fun f => (f.path, f.content))) :
    listFilesRecursive t1 = listFilesRecursive t2 := by
  unfold listFilesRecursive
  have : t1.map (fun f => f.path) = t2.map (fun f => f.path) := by
    have h1 := congrArg (List.map Prod.fst) h
    simpa [List.map_map, Function.comp] using h1
  rw [this]

/-! ## Claim C7 -/

/-- C7: the packager is deterministic over the staged content: two
trees whose walks produce the same paths with the same bytes — the
modification times may differ arbitrarily — serialize to the same
`deterministicTar` result, hence byte-identical archives and identical
`archive_sha256` manifest fields; the entry list handed to the
serializer is in sorted path order, so the archive bytes are a function
of the tree contents alone. -/
theorem packager_deterministic (tarCreate : List (String × List Nat) → List Nat)
    (hash : List Nat → String) (base : ArchiveManifest) (t1 t2 : List StagedFile)
    (hsame : t1.map (fun f => (f.path, f.content)) = t2.map (fun f => (f.path, f.content))) :
    deterministicTar tarCreate t1 = deterministicTar tarCreate t2 ∧
    (∀ a1 n1 a2 n2, deterministicTar tarCreate t1 = .ok a1 n1 →
      deterministicTar tarCreate t2 = .ok a2 n2 →
      hash a1 = hash a2 ∧ packagedManifest hash base a1 = packagedManifest hash base a2) ∧
    List.Sorted strLe (listFilesRecursive t1) := by
  have hfiles : listFilesRecursive t1 = listFilesRecursive t2 :=
    listFilesRecursive_congr hsame
  have harch : deterministicTar tarCreate t1 = deterministicTar tarCreate t2 := by
    unfold deterministicTar
    rw [hfiles]
    have : ∀ p, contentOf t1 p = contentOf t2 p := contentOf_congr t1 t2 hsame
    have hmap : (listFilesRecursive t2).map (fun p => (p, contentOf t1 p)) =
        (listFilesRecursive t2).map (fun p => (p, contentOf t2 p)) := by
      apply List.map_congr_left
      intro p _
      rw [this p]
    rw [hmap]
  refine ⟨harch, ?_, sortStrings_sorted _⟩
  intro a1 n1 a2 n2 h1 h2
  rw [harch, h2] at h1
  cases h1
  exact ⟨rfl, rfl⟩

/-- A concrete serializer for witnesses: concatenate the entry
bytes. -/
def concatTar : List (String × List Nat) → List Nat :=
  fun entries => (entries.map (fun e => e.2)).flatten

/-- Witness for C7: two one-file trees that differ only in mtime
serialize identically. -/
theorem packager_deterministic_witness :
    ([⟨"app/a.py", [1, 2], 5⟩] : List StagedFile).map (fun f => (f.path, f.content)) =
      ([⟨"app/a.py", [1, 2], 9⟩] : List StagedFile).map (fun f => (f.path, f.content)) ∧
    deterministicTar concatTar [⟨"app/a.py", [1, 2], 5⟩] =
      deterministicTar concatTar [⟨"app/a.py", [1, 2], 9⟩] := by
  refine ⟨rfl, ?_⟩
  exact (packager_deterministic concatTar (fun _ => "h") ⟨1, none⟩
    [⟨"app/a.py", [1, 2], 5⟩] [⟨"app/a.py", [1, 2], 9⟩] rfl).1

/-! ## Agent discovery (the discovery compile stage) -/

/-- One entry of the workspace root directory listing, with the two
facts discovery tests: is it a directory, and does it hold a
`main.py`. -/
structure FsDirEntry where
  name : String
  isDir : Bool
  hasMainPy : Bool
deriving DecidableEq, Repr

/-- The agent name a directory name maps to: `agent` is the root agent,
`agent-<x>` is the named agent `<x>` (`dirName.substring(6)`), anything
else is not an agent directory. -/
def agentNameOf (dirName : String) : Option String :=
  if dirName = "agent" then some "agent"
  else if ("agent-".data).isPrefixOf dirName.data then some ⟨dirName.data.drop 6⟩
  else none

/-- A discovered agent: name and source directory. -/
structure AgentDescriptor where
  name : String
  sourceDir : String
deriving DecidableEq, Repr

/-- The descriptor list `discoverAgents` accumulates: each directory
entry matching the naming convention and holding a `main.py`
contributes one descriptor; others are skipped (with a warning for an
agent directory missing `main.py`). -/
def discoveredAgents (entries : List FsDirEntry) : List AgentDescriptor :=
  entries.filterMap fun e =>
    if e.isDir then
      match agentNameOf e.name with
      | some n => if e.hasMainPy then some ⟨n, e.name⟩ else none
      | none => none
    else none

/-- The one discovery failure (`agent.missing.root`). -/
inductive DiscoveryError where
  | noRootAgent
deriving DecidableEq, Repr

/-- `discoverAgents`: collect the descriptors and fail unless one of
them is the root agent `agent`. -/
def discoverAgents (entries : List FsDirEntry) :
    Except DiscoveryError (List AgentDescriptor) :=
  let agents := discoveredAgents entries
  if agents.any (fun a => a.name == "agent") then .ok agents else .error .noRootAgent

/-- The registry the compile stage writes for the run stage: every
discovered agent with module path `<name>.main`, and the root agent
fixed to `agent`. -/
def mkAgentRegistry (agents : List AgentDescriptor) : AgentRegistry :=
  { agents := agents.map (fun a => { name := a.name, modulePath := a.name ++ ".main" }),
    rootAgent := "agent" }

theorem mem_discoveredAgents {entries : List FsDirEntry} {a : AgentDescriptor} :
    a ∈ discoveredAgents entries ↔
      ∃ e ∈ entries, e.isDir = true ∧ e.hasMainPy = true ∧
        agentNameOf e.name = some a.name ∧ a.sourceDir = e.name := by
  unfold discoveredAgents
  rw [List.mem_filterMap]
  constructor
  · rintro ⟨e, he, hfe⟩
    by_cases hdir : e.isDir = true
    · rw [if_pos hdir] at hfe
      cases hn : agentNameOf e.name with
      | none =>
        rw [hn] at hfe
        cases hfe
      | some n =>
        rw [hn] at hfe
        dsimp only at hfe
        by_cases hmp : e.hasMainPy = true
        · rw [if_pos hmp] at hfe
          cases hfe
          exact ⟨e, he, hdir, hmp, by rw [hn], rfl⟩
        · rw [if_neg hmp] at hfe
          cases hfe
    · rw [if_neg hdir] at hfe
      cases hfe
  · rintro ⟨e, he, hdir, hmp, hn, hsrc⟩
    refine ⟨e, he, ?_⟩
    rw [if_pos hdir, hn]
    dsimp only
    rw [if_pos hmp]
    obtain ⟨an, asrc⟩ := a
    dsimp only at hn hsrc ⊢
    rw [hsrc]

/-! ## Claim C8 -/

/-- C8: agent discovery fails with the discovery error exactly when no
workspace directory yields the root entry agent — in particular when no
directory matches the agent naming convention at all — and whenever it
succeeds, the registry built from the discovered agents designates the
single root agent name `agent` and at least one registered agent bears
it. -/
theorem discovery_root_invariant (entries : List FsDirEntry) :
    (discoverAgents entries = .error .noRootAgent ↔
      ∀ e ∈ entries, ¬(e.isDir = true ∧ e.hasMainPy = true ∧
        agentNameOf e.name = some "agent")) ∧
    ((∀ e ∈ entries, agentNameOf e.name = none) →
      discoverAgents entries = .error .noRootAgent) ∧
    (∀ agents, discoverAgents entries = .ok agents →
      (mkAgentRegistry agents).rootAgent = "agent" ∧
      ∃ entry ∈ (mkAgentRegistry agents).agents, entry.name = "agent") := by
  have hkey : (discoveredAgents entries).any (fun a => a.name == "agent") = true ↔
      ∃ e ∈ entries, e.isDir = true ∧ e.hasMainPy = true ∧
        agentNameOf e.name = some "agent" := by
    rw [List.any_eq_true]
    constructor
    · rintro ⟨a, ha, hname⟩
      rw [beq_iff_eq] at hname
      obtain ⟨e, he, hdir, hmp, hn, _⟩ := mem_discoveredAgents.mp ha
      exact ⟨e, he, hdir, hmp, by rw [hn, hname]⟩
    · rintro ⟨e, he, hdir, hmp, hn⟩
      refine ⟨⟨"agent", e.name⟩, ?_, by simp⟩
      exact mem_discoveredAgents.mpr ⟨e, he, hdir, hmp, hn, rfl⟩
  refine ⟨?_, ?_, ?_⟩
  · unfold discoverAgents
    by_cases hany : (discoveredAgents entries).any (fun a => a.name == "agent") = true
    · rw [if_pos hany]
      constructor
      · intro h
        cases h
      · intro hall
        obtain ⟨e, he, hdir, hmp, hn⟩ := hkey.mp hany
        exact absurd ⟨hdir, hmp, hn⟩ (hall e he)
    · rw [if_neg hany]
      constructor
      · intro _ e he hcon
        exact hany (hkey.mpr ⟨e, he, hcon.1, hcon.2.1, hcon.2.2⟩)
      · intro _
        rfl
  · intro hnone
    unfold discoverAgents
    have hno : ¬ (discoveredAgents entries).any (fun a => a.name == "agent") = true := by
      intro hany
      obtain ⟨e, he, _, _, hn⟩ := hkey.mp hany
      rw [hnone e he] at hn
      cases hn
    rw [if_neg hno]
  · intro agents h
    unfold discoverAgents at h
    by_cases hany : (discoveredAgents entries).any (fun a => a.name == "agent") = true
    · rw [if_pos hany] at h
      cases h
      refine ⟨rfl, ?_⟩
      obtain ⟨e, he, hdir, hmp, hn⟩ := hkey.mp hany
      have hmem : (⟨"agent", e.name⟩ : AgentDescriptor) ∈ discoveredAgents entries :=
        mem_discoveredAgents.mpr ⟨e, he, hdir, hmp, hn, rfl⟩
      refine ⟨{ name := "agent", modulePath := "agent" ++ ".main" }, ?_, rfl⟩
      exact List.mem_map_of_mem _ hmem
    · rw [if_neg hany] at h
      cases h

/-- Witness for C8: a workspace with a root `agent` directory holding
`main.py` discovers successfully and the registry designates `agent`
as root. -/
theorem discovery_root_invariant_witness :
    discoverAgents [⟨"agent", true, true⟩] = .ok [⟨"agent", "agent"⟩] ∧
    (mkAgentRegistry [⟨"agent", "agent"⟩]).rootAgent = "agent" := by
  refine ⟨rfl, ?_⟩
  exact ((discovery_root_invariant [⟨"agent", true, true⟩]).2.2 [⟨"agent", "agent"⟩] rfl).1

end Wagent
